import Mathlib

/-!
Verification of the pending-redaction bookkeeping, page-image cache and
coordinate mapping of the PDF redactor (`redactor.py`).

The external PDF engine (PyMuPDF / `fitz`) is treated as an external
capability, as the design document prescribes: a document handle is an
abstract value, page rendering is an uninterpreted function from page
numbers to images, and the engine-side effects of `add_redact_annot`,
`apply_redactions`, `scrub` and `save` act only on that abstract handle.
Everything the original code computes itself (the per-page pending map,
the LRU cache, coordinate scaling, the UI control flow around failures)
is embedded faithfully below.

Python `float` coordinates are modelled by exact rationals, Python 3.7+
`dict` / `OrderedDict` (which preserve key insertion order) by
association lists in insertion order.
-/

set_option autoImplicit false

namespace PDFRedactor

/-- Constant `MIN_RECT_SIZE = 5`: minimum pixel size for a drag to count
as an intentional draw. -/
def MIN_RECT_SIZE : ℚ := 5

/-- Constant `CACHE_LIMIT = 5`: maximum number of cached page images. -/
def CACHE_LIMIT : Nat := 5

/-- Constant `RENDER_DPI = 150`. -/
def RENDER_DPI : ℚ := 150

/-- Stand-in for the external `fitz.Document` handle, an abstract value. -/
abbrev Doc := Nat

/-- Data class `RedactionRect`: a pending redaction area on a specific
PDF page.  `pdf_rect` is `(x0, y0, x1, y1)` in PDF points. -/
structure RedactionRect where
  id : String
  page_num : Nat
  pdf_rect : ℚ × ℚ × ℚ × ℚ
  source : String
  search_term : String
deriving DecidableEq, Repr

/-- The `pending` field, `Dict[int, List[RedactionRect]]`; a Python dict
keeps key insertion order, so it is an association list in that order. -/
abbrev Pending := List (Nat × List RedactionRect)

/-- Body of `add_redaction`:
`self.pending.setdefault(redaction.page_num, []).append(redaction)` —
append to the page's list, creating the key at the end if missing. -/
def addPending : Pending → RedactionRect → Pending
  | [], r => [(r.page_num, [r])]
  | (p, l) :: rest, r =>
      if p = r.page_num then (p, l ++ [r]) :: rest
      else (p, l) :: addPending rest r

/-- Inner loop of `remove_redaction` over one page list: the first `r`
with `r.id == redaction_id` is also the first list element equal to `r`
(dataclass equality includes the id, and earlier elements were checked),
so `rects.remove(r)` deletes exactly that occurrence. -/
def removeFirstById : List RedactionRect → String → Option (RedactionRect × List RedactionRect)
  | [], _ => none
  | r :: rest, i =>
      if r.id = i then some (r, rest)
      else (removeFirstById rest i).map (fun x => (x.1, r :: x.2))

/-- Body of `remove_redaction`: scan pages in insertion order, delete the
first rect whose id matches, drop the page entry if its list became
empty, and return the removed rect (`None` when no id matches). -/
def removePending : Pending → String → Option RedactionRect × Pending
  | [], _ => (none, [])
  | (p, l) :: rest, i =>
      match removeFirstById l i with
      | some x => (some x.1, if x.2 = [] then rest else (p, x.2) :: rest)
      | none =>
          ((removePending rest i).1, (p, l) :: (removePending rest i).2)

/-- Body of `get_page_redactions`: `self.pending.get(page_num, [])`. -/
def getPageRedactions (pending : Pending) (p : Nat) : List RedactionRect :=
  (pending.lookup p).getD []

/-- Body of `all_redactions`: iterate `sorted(self.pending.keys())` and
extend the result with each page's list. -/
def allRedactions (pending : Pending) : List RedactionRect :=
  (List.insertionSort (· ≤ ·) (pending.map Prod.fst)).flatMap (getPageRedactions pending)

/-- Body of `redaction_count`: `sum(len(v) for v in self.pending.values())`. -/
def redactionCount (pending : Pending) : Nat :=
  (pending.map (fun e => e.2.length)).sum

/-- Body of `clear_page_redactions`: remember the page's list length,
`self.pending.pop(page_num, None)`, return the count. -/
def clearPagePending (pending : Pending) (p : Nat) : Nat × Pending :=
  ((getPageRedactions pending p).length, pending.eraseP (fun e => e.1 == p))

/-- The document/redaction state held by `RedactionModel`. -/
structure RedactionModel where
  doc : Option Doc
  file_path : Option String
  current_page : Nat
  pending : Pending
  is_applied : Bool
deriving DecidableEq, Repr

/-- Method `close_document`: close the handle and reset every field. -/
def closeDocument (_m : RedactionModel) : RedactionModel :=
  { doc := none, file_path := none, current_page := 0,
    pending := [], is_applied := false }

/-- Method `open_document`: it first runs `close_document()`, then calls
`fitz.open(path)`.  The engine call is a parameter: on `Except.error`
the exception propagates with the model already reset; on `Except.ok`
the remaining assignments run. -/
def openDocument (m : RedactionModel) (path : String)
    (fitzOpen : Except String Doc) : RedactionModel × Except String Unit :=
  let m1 := closeDocument m
  match fitzOpen with
  | .error e => (m1, .error e)
  | .ok d =>
      ({ m1 with doc := some d, file_path := some path, current_page := 0,
                 pending := [], is_applied := false }, .ok ())

/-- Method `add_redaction`. -/
def addRedaction (m : RedactionModel) (r : RedactionRect) : RedactionModel :=
  { m with pending := addPending m.pending r }

/-- Method `remove_redaction`. -/
def removeRedaction (m : RedactionModel) (i : String) :
    Option RedactionRect × RedactionModel :=
  ((removePending m.pending i).1, { m with pending := (removePending m.pending i).2 })

/-- Method `clear_page_redactions` on the model. -/
def clearPageRedactions (m : RedactionModel) (p : Nat) : Nat × RedactionModel :=
  ((clearPagePending m.pending p).1,
   { m with pending := (clearPagePending m.pending p).2 })

/-- Method `clear_all_redactions`: `count = self.redaction_count();
self.pending.clear(); return count`. -/
def clearAllRedactions (m : RedactionModel) : Nat × RedactionModel :=
  (redactionCount m.pending, { m with pending := [] })

/-- Method `apply_redactions`: the loop over `self.pending.items()`
increments `count` once per rect and annotates the external handle
(`self.doc[page_num]` raises when no document is open and some page has
marks, modelled by `none`); afterwards `self.pending.clear()` and
`self.is_applied = True` run and `count` is returned. -/
def applyRedactions (m : RedactionModel) : Option (Nat × RedactionModel) :=
  if m.doc = none ∧ m.pending ≠ [] then none
  else some (redactionCount m.pending,
             { m with pending := [], is_applied := true })

/-- All pending rects, page entries concatenated in map order. -/
def pendingRects (pending : Pending) : List RedactionRect :=
  pending.flatMap (fun e => e.2)

/-- Keys of the pending map are pairwise distinct (a dict invariant). -/
def KeysNodup (pending : Pending) : Prop :=
  (pending.map Prod.fst).Nodup

/-- Every key of the pending map maps to a non-empty list. -/
def NonNilVals (pending : Pending) : Prop :=
  ∀ e ∈ pending, e.2 ≠ []

/-- Every rect is filed under its own page number. -/
def PagesMatch (pending : Pending) : Prop :=
  ∀ e ∈ pending, ∀ r ∈ e.2, r.page_num = e.1

/-- Method `canvas_to_pdf`: divide by `_total_scale`, with the code's
zero-scale guard returning `(0.0, 0.0)`. -/
def canvasToPdf (totalScale cx cy : ℚ) : ℚ × ℚ :=
  if totalScale = 0 then (0, 0) else (cx / totalScale, cy / totalScale)

/-- Method `pdf_to_canvas`: multiply by `_total_scale`. -/
def pdfToCanvas (totalScale px py : ℚ) : ℚ × ℚ :=
  (px * totalScale, py * totalScale)

/-- Static method `render_scale`: `RENDER_DPI / 72.0`. -/
def renderScale : ℚ := RENDER_DPI / 72

/-- An abstract rendered page image (the engine's pixel data). -/
abbrev Img := Nat

/-- The renderer's `OrderedDict` cache: an association list holding the
least recently used entry first (`move_to_end` appends at the back,
`popitem(last=False)` pops the front). -/
abbrev Cache := List (Nat × Img)

/-- Method `render_page`: a cache hit moves the entry to the most
recently used end and returns the cached image; a miss renders through
the engine (the `render` argument), appends the new entry and pops the
front entry when `CACHE_LIMIT` is exceeded. -/
def renderPage (render : Nat → Img) (c : Cache) (p : Nat) : Img × Cache :=
  match c.lookup p with
  | some img => (img, c.eraseP (fun e => e.1 == p) ++ [(p, img)])
  | none =>
      if CACHE_LIMIT < (c ++ [(p, render p)]).length
      then (render p, (c ++ [(p, render p)]).drop 1)
      else (render p, c ++ [(p, render p)])

/-- Method `invalidate`: drop one page's entry, or clear the cache. -/
def invalidate (c : Cache) (po : Option Nat) : Cache :=
  match po with
  | some p => c.eraseP (fun e => e.1 == p)
  | none => []

/-- One client call to the renderer. -/
inductive CacheOp where
  | render (p : Nat)
  | invalidate (po : Option Nat)
deriving DecidableEq, Repr

/-- Run a sequence of renderer calls from a given cache state. -/
def runCacheOps (render : Nat → Img) (c : Cache) : List CacheOp → Cache
  | [] => c
  | CacheOp.render p :: ops => runCacheOps render (renderPage render c p).2 ops
  | CacheOp.invalidate po :: ops => runCacheOps render (invalidate c po) ops

/-- The mutable state of `CanvasController` that the claims touch: the
shared model, the renderer cache, `_total_scale`, and the in-progress
drag (`_drawing` together with `_draw_start`, which `_on_press` always
sets as a pair). -/
structure CanvasState where
  model : RedactionModel
  cache : Cache
  totalScale : ℚ
  drawing : Option (ℚ × ℚ)
deriving DecidableEq

/-- Method `display_page`: render the page through the cache, compute
`display_scale = fit_width / pil_image.width` (defaulting `fit_width`
to `max(canvas.winfo_width() - 20, 400)`) and store
`_total_scale = render_scale * display_scale`; the model is only read.
`render` and `imgWidth` abstract the engine's pixmap and its pixel
width, `canvasWidth` the widget's current width. -/
def displayPage (render : Nat → Img) (imgWidth : Nat → ℚ) (cs : CanvasState)
    (page_num : Nat) (fit_width : Option ℚ) (canvasWidth : ℚ) : CanvasState :=
  if cs.model.doc = none then cs
  else
    { cs with
      cache := (renderPage render cs.cache page_num).2,
      totalScale :=
        renderScale * ((fit_width.getD (max (canvasWidth - 20) 400)) / imgWidth page_num) }

/-- Handler `_on_release`: nothing happens when no drag is in progress;
otherwise the drag rectangle is normalized, dropped when narrower than
`MIN_RECT_SIZE` in either direction, and otherwise converted corner by
corner with `canvas_to_pdf` and added as a manual mark (`freshId`
stands for the generated uuid hex). -/
def onRelease (cs : CanvasState) (freshId : String) (cx cy : ℚ) : CanvasState :=
  match cs.drawing with
  | none => cs
  | some s =>
      if max s.1 cx - min s.1 cx < MIN_RECT_SIZE ∨
         max s.2 cy - min s.2 cy < MIN_RECT_SIZE then
        { cs with drawing := none }
      else
        { cs with
          drawing := none
          model := addRedaction cs.model
            { id := freshId,
              page_num := cs.model.current_page,
              pdf_rect := ((canvasToPdf cs.totalScale (min s.1 cx) (min s.2 cy)).1,
                           (canvasToPdf cs.totalScale (min s.1 cx) (min s.2 cy)).2,
                           (canvasToPdf cs.totalScale (max s.1 cx) (max s.2 cy)).1,
                           (canvasToPdf cs.totalScale (max s.1 cx) (max s.2 cy)).2),
              source := "manual",
              search_term := "" } }

/-- Observable UI-boundary actions performed by the window's handlers. -/
inductive UIEvent where
  | callOpenDoc (path : String)
  | callSaveDoc (path : String)
  | callApply
  | errorDialog (msg : String)
  | infoDialog (msg : String)
  | refreshUI
deriving DecidableEq, Repr

/-- Recognizer for `callOpenDoc` events. -/
def isCallOpen : UIEvent → Bool
  | UIEvent.callOpenDoc _ => true
  | _ => false

/-- Recognizer for `callSaveDoc` events. -/
def isCallSave : UIEvent → Bool
  | UIEvent.callSaveDoc _ => true
  | _ => false

/-- Recognizer for `callApply` events. -/
def isCallApply : UIEvent → Bool
  | UIEvent.callApply => true
  | _ => false

/-- Recognizer for `errorDialog` events. -/
def isErrorDialog : UIEvent → Bool
  | UIEvent.errorDialog _ => true
  | _ => false

/-- Handler `_on_open`: the file dialog may be cancelled; otherwise
`open_document` runs inside a `try` whose `except` shows an error
dialog, and on success the view is refreshed. -/
def onOpen (dialogPath : Option String) (openResult : Except String Unit) :
    List UIEvent :=
  match dialogPath with
  | none => []
  | some path =>
      UIEvent.callOpenDoc path ::
        (match openResult with
         | .ok _ => [UIEvent.refreshUI]
         | .error e => [UIEvent.errorDialog ("Could not open PDF:\n" ++ e)])

/-- Method `_do_apply`: `apply_redactions` runs inside a `try`; on
success the pages are re-rendered and the status updated, on failure an
error dialog is shown and nothing further happens. -/
def doApply (applyResult : Except String Nat) : List UIEvent :=
  UIEvent.callApply ::
    (match applyResult with
     | .ok _ => [UIEvent.refreshUI]
     | .error e => [UIEvent.errorDialog ("Failed to apply redactions:\n" ++ e)])

/-- The tail of `_on_save` after the apply prompt: the save dialog may
be cancelled; otherwise `save_document` runs inside a `try` whose
`except` shows an error dialog. -/
def saveTail (savePath : Option String) (saveResult : Except String Unit) :
    List UIEvent :=
  match savePath with
  | none => []
  | some path =>
      UIEvent.callSaveDoc path ::
        (match saveResult with
         | .ok _ => [UIEvent.infoDialog ("Redacted PDF saved to:\n" ++ path)]
         | .error e => [UIEvent.errorDialog ("Could not save PDF:\n" ++ e)])

/-- Handler `_on_save`: return when no document; when there are pending
marks, an apply prompt offers Yes (run `_do_apply`, then save), No
(save without applying) and Cancel (return); then the save dialog and
the guarded save run. -/
def onSave (hasDoc hasPending : Bool) (answer : Option Bool)
    (applyResult : Except String Nat) (savePath : Option String)
    (saveResult : Except String Unit) : List UIEvent :=
  if hasDoc = false then []
  else
    match hasPending, answer with
    | true, none => []
    | true, some true => doApply applyResult ++ saveTail savePath saveResult
    | true, some false => saveTail savePath saveResult
    | false, _ => saveTail savePath saveResult

/-- Witness fixture: a manual mark on page 0. -/
def rA : RedactionRect :=
  { id := "aa", page_num := 0, pdf_rect := (1, 2, 3, 4),
    source := "manual", search_term := "" }

/-- Witness fixture: a search mark on page 1. -/
def rB : RedactionRect :=
  { id := "bb", page_num := 1, pdf_rect := (5, 6, 7, 8),
    source := "search", search_term := "x" }

/-- Witness fixture: an open document with one mark on each of two pages. -/
def mW : RedactionModel :=
  { doc := some 0, file_path := none, current_page := 0,
    pending := [(0, [rA]), (1, [rB])], is_applied := false }

/-- Witness fixture: a controller state mid-drag at scale 2. -/
def csW : CanvasState :=
  { model := mW, cache := [], totalScale := 2, drawing := some (0, 0) }

@[simp] theorem pendingRects_nil : pendingRects [] = [] := rfl

@[simp] theorem pendingRects_cons (p : Nat) (l : List RedactionRect) (rest : Pending) :
    pendingRects ((p, l) :: rest) = l ++ pendingRects rest := rfl

theorem redactionCount_eq_length (pending : Pending) :
    redactionCount pending = (pendingRects pending).length := by
  induction pending with
  | nil => rfl
  | cons e rest ih =>
      obtain ⟨p, l⟩ := e
      simp [redactionCount, pendingRects] at ih ⊢
      omega

theorem redactionCount_addPending (pending : Pending) (r : RedactionRect) :
    redactionCount (addPending pending r) = redactionCount pending + 1 := by
  induction pending with
  | nil => rfl
  | cons e rest ih =>
      obtain ⟨p, l⟩ := e
      by_cases hp : p = r.page_num
      · simp [addPending, hp, redactionCount]
        omega
      · simp [addPending, hp, redactionCount] at ih ⊢
        omega

theorem lookup_eq_none_keys {pending : Pending} {p : Nat}
    (h : p ∉ pending.map Prod.fst) : pending.lookup p = none := by
  induction pending with
  | nil => rfl
  | cons e rest ih =>
      obtain ⟨k, l⟩ := e
      simp only [List.map_cons, List.mem_cons] at h
      push_neg at h
      have hk : (p == k) = false := beq_eq_false_iff_ne.mpr h.1
      rw [List.lookup, hk]
      exact ih h.2

theorem removeFirstById_none {l : List RedactionRect} {i : String}
    (h : removeFirstById l i = none) : ∀ r ∈ l, r.id ≠ i := by
  induction l with
  | nil => simp
  | cons r rest ih =>
      by_cases hid : r.id = i
      · rw [removeFirstById, if_pos hid] at h
        exact absurd h (by simp)
      · rw [removeFirstById, if_neg hid] at h
        intro r0 hr0
        rcases List.mem_cons.mp hr0 with h1 | h1
        · exact h1 ▸ hid
        · cases hmap : removeFirstById rest i with
          | none => exact ih hmap r0 h1
          | some y => rw [hmap] at h; simp at h

theorem removeFirstById_absent {l : List RedactionRect} {i : String}
    (h : ∀ r ∈ l, r.id ≠ i) : removeFirstById l i = none := by
  induction l with
  | nil => rfl
  | cons r rest ih =>
      rw [removeFirstById, if_neg (h r (by simp))]
      rw [ih (fun r0 hr0 => h r0 (by simp [hr0]))]
      rfl

theorem removeFirstById_some {i : String} :
    ∀ {l : List RedactionRect} {x}, removeFirstById l i = some x →
      x.1.id = i ∧ l.Perm (x.1 :: x.2) := by
  intro l
  induction l with
  | nil => intro x h; simp [removeFirstById] at h
  | cons r rest ih =>
      intro x h
      by_cases hid : r.id = i
      · rw [removeFirstById, if_pos hid] at h
        injection h with h2
        subst h2
        exact ⟨hid, List.Perm.refl _⟩
      · rw [removeFirstById, if_neg hid] at h
        cases hmap : removeFirstById rest i with
        | none => rw [hmap] at h; simp at h
        | some y =>
            rw [hmap] at h
            simp only [Option.map_some'] at h
            obtain ⟨h1, h2⟩ := ih hmap
            injection h with h3
            subst h3
            refine ⟨h1, ?_⟩
            show (r :: rest).Perm (y.1 :: r :: y.2)
            exact List.Perm.trans (List.Perm.cons r h2) (List.Perm.swap y.1 r y.2)

theorem removePending_absent {i : String} :
    ∀ {pending : Pending}, (∀ r ∈ pendingRects pending, r.id ≠ i) →
      removePending pending i = (none, pending) := by
  intro pending
  induction pending with
  | nil => intro _; rfl
  | cons e rest ih =>
      obtain ⟨p, l⟩ := e
      intro h
      have hl : removeFirstById l i = none :=
        removeFirstById_absent (fun r hr => h r (by simp [hr]))
      have hrest := ih (fun r hr => h r (by simp [hr]))
      simp only [removePending, hl, hrest]

theorem removePending_none {i : String} :
    ∀ {pending : Pending}, (removePending pending i).1 = none →
      ∀ r ∈ pendingRects pending, r.id ≠ i := by
  intro pending
  induction pending with
  | nil => intro _; simp
  | cons e rest ih =>
      obtain ⟨p, l⟩ := e
      intro h r hr
      cases hfb : removeFirstById l i with
      | some x => simp [removePending, hfb] at h
      | none =>
          simp only [removePending, hfb] at h
          rcases List.mem_append.mp (by simpa using hr) with h1 | h1
          · exact removeFirstById_none hfb r h1
          · exact ih h r h1

theorem removePending_some {i : String} :
    ∀ {pending : Pending} {r0}, (removePending pending i).1 = some r0 →
      r0.id = i ∧
      (pendingRects pending).Perm (r0 :: pendingRects (removePending pending i).2) := by
  intro pending
  induction pending with
  | nil => intro r0 h; simp [removePending] at h
  | cons e rest ih =>
      obtain ⟨p, l⟩ := e
      intro r0 h
      cases hfb : removeFirstById l i with
      | some x =>
          obtain ⟨hid, hperm⟩ := removeFirstById_some hfb
          simp only [removePending, hfb] at h ⊢
          injection h with h2
          subst h2
          refine ⟨hid, ?_⟩
          by_cases hx : x.2 = []
          · rw [if_pos hx]
            rw [hx] at hperm
            simpa using List.Perm.append_right (pendingRects rest) hperm
          · rw [if_neg hx]
            simpa using List.Perm.append_right (pendingRects rest) hperm
      | none =>
          simp only [removePending, hfb, pendingRects_cons] at h ⊢
          obtain ⟨h1, h2⟩ := ih h
          refine ⟨h1, ?_⟩
          exact List.Perm.trans (List.Perm.append_left l h2) List.perm_middle

theorem removePending_isSome {pending : Pending} {i : String}
    (h : ∃ r ∈ pendingRects pending, r.id = i) :
    ((removePending pending i).1).isSome = true := by
  cases hres : (removePending pending i).1 with
  | some r0 => rfl
  | none =>
      obtain ⟨r, hr, hid⟩ := h
      exact absurd hid (removePending_none hres r hr)

/-- C1: applying redactions empties the pending set, sets the applied
flag, and returns the number of marks that were pending. -/
theorem apply_redactions_clears_pending (m : RedactionModel) (h : m.doc ≠ none) :
    ∃ m2, applyRedactions m = some (redactionCount m.pending, m2) ∧
      m2.pending = [] ∧ m2.is_applied = true := by
  refine ⟨{ m with pending := [], is_applied := true }, ?_, rfl, rfl⟩
  unfold applyRedactions
  rw [if_neg]
  rintro ⟨h0, -⟩
  exact h h0

/-- Witness for C1 at a concrete state with one pending mark. -/
theorem apply_redactions_clears_pending_witness :
    ∃ m2, applyRedactions
        { doc := some 0, file_path := some ("a.pdf"), current_page := 0,
          pending := [(0, [{ id := "aa", page_num := 0,
                             pdf_rect := (1, 2, 3, 4), source := "manual",
                             search_term := "" }])],
          is_applied := false } =
      some (redactionCount [(0, [{ id := "aa", page_num := 0,
                                   pdf_rect := (1, 2, 3, 4),
                                   source := "manual",
                                   search_term := "" }])], m2) ∧
      m2.pending = [] ∧ m2.is_applied = true :=
  apply_redactions_clears_pending
    { doc := some 0, file_path := some ("a.pdf"), current_page := 0,
      pending := [(0, [{ id := "aa", page_num := 0, pdf_rect := (1, 2, 3, 4),
                         source := "manual", search_term := "" }])],
      is_applied := false } (by simp)

/-- C10: opening a document first resets the model by `close_document`,
so when the engine call fails the model is left with no document and no
pending marks — the previous document and its marks are lost. -/
theorem open_document_not_atomic (m : RedactionModel) (path e : String) :
    openDocument m path (.error e) = (closeDocument m, .error e) ∧
    (openDocument m path (.error e)).1.doc = none ∧
    (openDocument m path (.error e)).1.pending = [] ∧
    (openDocument m path (.error e)).1.file_path = none ∧
    (openDocument m path (.error e)).1.current_page = 0 ∧
    (openDocument m path (.error e)).1.is_applied = false :=
  ⟨rfl, rfl, rfl, rfl, rfl, rfl⟩

theorem lookup_mem : ∀ {c : Cache} {p : Nat} {img : Img},
    c.lookup p = some img → (p, img) ∈ c := by
  intro c
  induction c with
  | nil => intro p img h; simp [List.lookup] at h
  | cons e rest ih =>
      obtain ⟨k, b⟩ := e
      intro p img h
      rw [List.lookup_cons] at h
      cases hpk : (p == k) with
      | true =>
          rw [hpk] at h
          injection h with h2
          have : p = k := by simpa [beq_iff_eq] using hpk
          subst this
          subst h2
          exact List.mem_cons_self _ _
      | false =>
          rw [hpk] at h
          exact List.mem_cons_of_mem _ (ih h)

theorem pending_lookup_mem : ∀ {pending : Pending} {p : Nat} {l : List RedactionRect},
    pending.lookup p = some l → (p, l) ∈ pending := by
  intro pending
  induction pending with
  | nil => intro p l h; simp [List.lookup] at h
  | cons e rest ih =>
      obtain ⟨k, b⟩ := e
      intro p l h
      rw [List.lookup_cons] at h
      cases hpk : (p == k) with
      | true =>
          rw [hpk] at h
          injection h with h2
          have : p = k := by simpa [beq_iff_eq] using hpk
          subst this
          subst h2
          exact List.mem_cons_self _ _
      | false =>
          rw [hpk] at h
          exact List.mem_cons_of_mem _ (ih h)

theorem lookup_eraseP_self {p : Nat} :
    ∀ {pending : Pending}, KeysNodup pending →
      (pending.eraseP (fun e => e.1 == p)).lookup p = none := by
  intro pending
  induction pending with
  | nil => intro _; rfl
  | cons e rest ih =>
      obtain ⟨k, l⟩ := e
      intro hnd
      simp only [KeysNodup, List.map_cons, List.nodup_cons] at hnd
      by_cases hk : k = p
      · subst hk
        simp only [List.eraseP_cons, show ((k, l).1 == k) = true from by simp,
          cond_true]
        exact lookup_eq_none_keys hnd.1
      · have h1 : ((k, l).1 == p) = false := beq_eq_false_iff_ne.mpr hk
        simp only [List.eraseP_cons, h1, cond_false]
        rw [List.lookup_cons, beq_eq_false_iff_ne.mpr (fun hh => hk hh.symm)]
        exact ih hnd.2

theorem lookup_eraseP_ne {p q : Nat} (hq : q ≠ p) :
    ∀ (pending : Pending),
      (pending.eraseP (fun e => e.1 == p)).lookup q = pending.lookup q := by
  intro pending
  induction pending with
  | nil => rfl
  | cons e rest ih =>
      obtain ⟨k, l⟩ := e
      by_cases hk : k = p
      · subst hk
        simp only [List.eraseP_cons, show ((k, l).1 == k) = true from by simp,
          cond_true]
        rw [List.lookup_cons, beq_eq_false_iff_ne.mpr hq]
      · have h1 : ((k, l).1 == p) = false := beq_eq_false_iff_ne.mpr hk
        simp only [List.eraseP_cons, h1, cond_false]
        rw [List.lookup_cons, List.lookup_cons]
        cases hqk : (q == k) with
        | true => rfl
        | false => exact ih

theorem NonNilVals_addPending {r : RedactionRect} :
    ∀ {pending : Pending}, NonNilVals pending →
      NonNilVals (addPending pending r) := by
  intro pending
  induction pending with
  | nil =>
      intro _ e he
      simp only [addPending, List.mem_singleton] at he
      subst he
      simp
  | cons e0 rest ih =>
      obtain ⟨p, l⟩ := e0
      intro h e he
      by_cases hp : p = r.page_num
      · rw [addPending, if_pos hp] at he
        rcases List.mem_cons.mp he with h1 | h1
        · subst h1; simp
        · exact h e (List.mem_cons_of_mem _ h1)
      · rw [addPending, if_neg hp] at he
        rcases List.mem_cons.mp he with h1 | h1
        · subst h1; exact h (p, l) (List.mem_cons_self _ _)
        · exact ih (fun e2 he2 => h e2 (List.mem_cons_of_mem _ he2)) e h1

theorem NonNilVals_removePending {i : String} :
    ∀ {pending : Pending}, NonNilVals pending →
      NonNilVals (removePending pending i).2 := by
  intro pending
  induction pending with
  | nil => intro h; exact h
  | cons e0 rest ih =>
      obtain ⟨p, l⟩ := e0
      intro h
      have htail : NonNilVals rest := fun e2 he2 => h e2 (List.mem_cons_of_mem _ he2)
      cases hfb : removeFirstById l i with
      | some x =>
          simp only [removePending, hfb]
          by_cases hx : x.2 = []
          · rw [if_pos hx]; exact htail
          · rw [if_neg hx]
            intro e he
            rcases List.mem_cons.mp he with h1 | h1
            · subst h1; exact hx
            · exact htail e h1
      | none =>
          simp only [removePending, hfb]
          intro e he
          rcases List.mem_cons.mp he with h1 | h1
          · subst h1; exact h (p, l) (List.mem_cons_self _ _)
          · exact ih htail e h1

theorem applyRedactions_some {m : RedactionModel} {cnt : Nat} {m2 : RedactionModel}
    (h : applyRedactions m = some (cnt, m2)) :
    cnt = redactionCount m.pending ∧
    m2 = { m with pending := [], is_applied := true } := by
  unfold applyRedactions at h
  split at h
  · exact absurd h (by simp)
  · simp only [Option.some.injEq, Prod.mk.injEq] at h
    exact ⟨h.1.symm, h.2.symm⟩

theorem removePending_lookup_last {i : String} {p : Nat} :
    ∀ (pending : Pending), KeysNodup pending →
      ∀ r0 : RedactionRect, pending.lookup p = some [r0] → r0.id = i →
      (∀ e ∈ pending, ∀ r1 ∈ e.2, r1.id = i → e.1 = p) →
      ((removePending pending i).2).lookup p = none := by
  intro pending
  induction pending with
  | nil => intro _ r0 h; simp [List.lookup] at h
  | cons e rest ih =>
      obtain ⟨k, l⟩ := e
      intro hnd r0 hl hid honly
      simp only [KeysNodup, List.map_cons, List.nodup_cons] at hnd
      by_cases hk : k = p
      · subst hk
        rw [List.lookup_cons, show (k == k) = true from by simp] at hl
        injection hl with hl2
        subst hl2
        have hr : removeFirstById [r0] i = some (r0, []) := by
          simp [removeFirstById, hid]
        simp only [removePending, hr]
        exact lookup_eq_none_keys hnd.1
      · have hbp : (p == k) = false :=
          beq_eq_false_iff_ne.mpr (fun hh => hk hh.symm)
        rw [List.lookup_cons, hbp] at hl
        have hfb : removeFirstById l i = none := by
          apply removeFirstById_absent
          intro r1 hr1 hr1i
          exact hk (honly (k, l) (List.mem_cons_self _ _) r1 hr1 hr1i)
        simp only [removePending, hfb]
        rw [List.lookup_cons, hbp]
        exact ih hnd.2 r0 hl hid
          (fun e2 he2 => honly e2 (List.mem_cons_of_mem _ he2))

/-- C2: every key of the pending mapping maps to a non-empty list, and
this invariant is preserved by add, remove, clear-page, clear-all and
apply; removing the only mark of a page (its id occurring nowhere else)
removes the page's entry from the mapping. -/
theorem remove_last_mark_drops_page (m : RedactionModel) (r : RedactionRect)
    (i : String) (p : Nat) (r0 : RedactionRect) (hinv : NonNilVals m.pending) :
    NonNilVals (addRedaction m r).pending ∧
    NonNilVals (removeRedaction m i).2.pending ∧
    NonNilVals (clearPageRedactions m p).2.pending ∧
    NonNilVals (clearAllRedactions m).2.pending ∧
    (∀ cnt m2, applyRedactions m = some (cnt, m2) → NonNilVals m2.pending) ∧
    (KeysNodup m.pending → m.pending.lookup p = some [r0] → r0.id = i →
      (∀ e ∈ m.pending, ∀ r1 ∈ e.2, r1.id = i → e.1 = p) →
      (removeRedaction m i).2.pending.lookup p = none) := by
  refine ⟨NonNilVals_addPending hinv, NonNilVals_removePending hinv, ?_, ?_, ?_, ?_⟩
  · intro e he
    exact hinv e (List.mem_of_mem_eraseP he)
  · intro e he
    simp [clearAllRedactions] at he
  · intro cnt m2 h
    rw [(applyRedactions_some h).2]
    intro e he
    simp at he
  · intro hnd hl hid honly
    exact removePending_lookup_last m.pending hnd r0 hl hid honly

/-- Witness for C2 at a concrete two-page state: removing the only mark
of page 0 removes the key 0. -/
theorem remove_last_mark_drops_page_witness :
    NonNilVals (addRedaction mW rB).pending ∧
    NonNilVals (removeRedaction mW "aa").2.pending ∧
    NonNilVals (clearPageRedactions mW 0).2.pending ∧
    NonNilVals (clearAllRedactions mW).2.pending ∧
    (∀ cnt m2, applyRedactions mW = some (cnt, m2) → NonNilVals m2.pending) ∧
    (KeysNodup mW.pending → mW.pending.lookup 0 = some [rA] → rA.id = "aa" →
      (∀ e ∈ mW.pending, ∀ r1 ∈ e.2, r1.id = "aa" → e.1 = 0) →
      (removeRedaction mW "aa").2.pending.lookup 0 = none) :=
  remove_last_mark_drops_page mW rB "aa" 0 rA (by unfold NonNilVals; decide)

/-- C4: pending-set bookkeeping counts for add, remove (present and
absent id), clear-page and clear-all. -/
theorem pending_bookkeeping_counts (m : RedactionModel) (r : RedactionRect)
    (i : String) (p : Nat) (hnd : KeysNodup m.pending) :
    redactionCount (addRedaction m r).pending = redactionCount m.pending + 1 ∧
    (∀ r0, (removeRedaction m i).1 = some r0 →
      r0.id = i ∧
      (pendingRects m.pending).Perm (r0 :: pendingRects (removeRedaction m i).2.pending) ∧
      redactionCount (removeRedaction m i).2.pending + 1 = redactionCount m.pending) ∧
    ((∃ r0 ∈ pendingRects m.pending, r0.id = i) →
      ((removeRedaction m i).1).isSome = true) ∧
    ((∀ r0 ∈ pendingRects m.pending, r0.id ≠ i) → removeRedaction m i = (none, m)) ∧
    (clearPageRedactions m p).1 = (getPageRedactions m.pending p).length ∧
    getPageRedactions (clearPageRedactions m p).2.pending p = [] ∧
    (∀ q, q ≠ p → getPageRedactions (clearPageRedactions m p).2.pending q =
      getPageRedactions m.pending q) ∧
    (clearAllRedactions m).1 = redactionCount m.pending ∧
    (clearAllRedactions m).2.pending = [] := by
  refine ⟨redactionCount_addPending m.pending r, ?_, ?_, ?_, rfl, ?_, ?_, rfl, rfl⟩
  · intro r0 h
    have hpend : (removeRedaction m i).2.pending = (removePending m.pending i).2 := rfl
    have h2 : (removePending m.pending i).1 = some r0 := h
    obtain ⟨h3, h4⟩ := removePending_some h2
    refine ⟨h3, hpend ▸ h4, ?_⟩
    have hlen := h4.length_eq
    rw [redactionCount_eq_length, redactionCount_eq_length, hpend]
    simp at hlen
    omega
  · exact removePending_isSome
  · intro h
    show ((removePending m.pending i).1, _) = _
    rw [removePending_absent h]
  · show ((m.pending.eraseP (fun e => e.1 == p)).lookup p).getD [] = []
    rw [lookup_eraseP_self hnd]
    rfl
  · intro q hq
    show ((m.pending.eraseP (fun e => e.1 == p)).lookup q).getD [] = _
    rw [lookup_eraseP_ne hq]
    rfl

/-- Witness for C4 at the concrete two-page state. -/
theorem pending_bookkeeping_counts_witness :
    redactionCount (addRedaction mW rB).pending = redactionCount mW.pending + 1 ∧
    (∀ r0, (removeRedaction mW "aa").1 = some r0 →
      r0.id = "aa" ∧
      (pendingRects mW.pending).Perm
        (r0 :: pendingRects (removeRedaction mW "aa").2.pending) ∧
      redactionCount (removeRedaction mW "aa").2.pending + 1 =
        redactionCount mW.pending) ∧
    ((∃ r0 ∈ pendingRects mW.pending, r0.id = "aa") →
      ((removeRedaction mW "aa").1).isSome = true) ∧
    ((∀ r0 ∈ pendingRects mW.pending, r0.id ≠ "aa") →
      removeRedaction mW "aa" = (none, mW)) ∧
    (clearPageRedactions mW 0).1 = (getPageRedactions mW.pending 0).length ∧
    getPageRedactions (clearPageRedactions mW 0).2.pending 0 = [] ∧
    (∀ q, q ≠ 0 → getPageRedactions (clearPageRedactions mW 0).2.pending q =
      getPageRedactions mW.pending q) ∧
    (clearAllRedactions mW).1 = redactionCount mW.pending ∧
    (clearAllRedactions mW).2.pending = [] :=
  pending_bookkeeping_counts mW rB "aa" 0 (by unfold KeysNodup; decide)

/-- C3 counterexample: at total scale 0 the canvas-to-PDF conversion
collapses to the origin, so the round trip of pixel (1, 1) returns
(0, 0), not the original coordinate, beyond any rounding tolerance. -/
theorem coordinate_round_trip_cex :
    pdfToCanvas 0 (canvasToPdf 0 1 1).1 (canvasToPdf 0 1 1).2 = (0, 0) ∧
    pdfToCanvas 0 (canvasToPdf 0 1 1).1 (canvasToPdf 0 1 1).2 ≠ (1, 1) := by
  constructor <;> norm_num [canvasToPdf, pdfToCanvas]

/-- C3 amended: for every nonzero total scale, converting a canvas pixel
to PDF points and back is the identity (exact in rational arithmetic,
hence within any rounding tolerance). -/
theorem coordinate_round_trip (s cx cy : ℚ) (hs : s ≠ 0) :
    pdfToCanvas s (canvasToPdf s cx cy).1 (canvasToPdf s cx cy).2 = (cx, cy) := by
  simp only [canvasToPdf, pdfToCanvas, if_neg hs]
  rw [Prod.mk.injEq]
  constructor <;> field_simp

/-- Witness for amended C3 at scale 3/2 and pixel (7, 11). -/
theorem coordinate_round_trip_witness :
    pdfToCanvas (3 / 2) (canvasToPdf (3 / 2) 7 11).1 (canvasToPdf (3 / 2) 7 11).2 =
      (7, 11) :=
  coordinate_round_trip (3 / 2) 7 11 (by norm_num)

theorem mem_addPending {r r0 : RedactionRect} :
    ∀ {pending : Pending}, r0 ∈ pendingRects (addPending pending r) →
      r0 ∈ pendingRects pending ∨ r0 = r := by
  intro pending
  induction pending with
  | nil =>
      intro h
      simp [addPending] at h
      exact Or.inr h
  | cons e rest ih =>
      obtain ⟨p, l⟩ := e
      intro h
      by_cases hp : p = r.page_num
      · rw [addPending, if_pos hp] at h
        simp only [pendingRects_cons] at h ⊢
        rcases List.mem_append.mp h with h1 | h1
        · rcases List.mem_append.mp h1 with h2 | h2
          · exact Or.inl (List.mem_append.mpr (Or.inl h2))
          · exact Or.inr (by simpa using h2)
        · exact Or.inl (List.mem_append.mpr (Or.inr h1))
      · rw [addPending, if_neg hp] at h
        simp only [pendingRects_cons, List.mem_append] at h ⊢
        rcases h with h1 | h1
        · exact Or.inl (Or.inl h1)
        · rcases ih h1 with h2 | h2
          · exact Or.inl (Or.inr h2)
          · exact Or.inr h2

theorem mem_removePending {i : String} {r0 : RedactionRect} :
    ∀ {pending : Pending}, r0 ∈ pendingRects (removePending pending i).2 →
      r0 ∈ pendingRects pending := by
  intro pending
  induction pending with
  | nil => intro h; exact h
  | cons e rest ih =>
      obtain ⟨p, l⟩ := e
      intro h
      cases hfb : removeFirstById l i with
      | some x =>
          obtain ⟨-, hperm⟩ := removeFirstById_some hfb
          simp only [removePending, hfb] at h
          simp only [pendingRects_cons, List.mem_append]
          by_cases hx : x.2 = []
          · rw [if_pos hx] at h
            exact Or.inr h
          · rw [if_neg hx] at h
            simp only [pendingRects_cons, List.mem_append] at h
            rcases h with h1 | h1
            · exact Or.inl (hperm.mem_iff.mpr (List.mem_cons_of_mem _ h1))
            · exact Or.inr h1
      | none =>
          simp only [removePending, hfb, pendingRects_cons, List.mem_append] at h ⊢
          rcases h with h1 | h1
          · exact Or.inl h1
          · exact Or.inr (ih h1)

/-- C6: redaction marks are immutable: every model operation keeps each
surviving mark identical (all fields, in particular pdf_rect) to a mark
of the previous state (the added mark apart), and display_page at any
fit width changes only the cache and the total scale, leaving the model
and hence every stored mark untouched. -/
theorem marks_immutable (cs : CanvasState) (render : Nat → Img)
    (imgWidth : Nat → ℚ) (page_num p : Nat) (fit_width : Option ℚ)
    (canvasWidth : ℚ) (m : RedactionModel) (r : RedactionRect) (i : String) :
    (displayPage render imgWidth cs page_num fit_width canvasWidth).model = cs.model ∧
    (∀ r0 ∈ pendingRects (addRedaction m r).pending,
      r0 ∈ pendingRects m.pending ∨ r0 = r) ∧
    (∀ r0 ∈ pendingRects (removeRedaction m i).2.pending,
      r0 ∈ pendingRects m.pending) ∧
    (∀ r0 ∈ pendingRects (clearPageRedactions m p).2.pending,
      r0 ∈ pendingRects m.pending) ∧
    (∀ r0 ∈ pendingRects (clearAllRedactions m).2.pending,
      r0 ∈ pendingRects m.pending) ∧
    (∀ cnt m2, applyRedactions m = some (cnt, m2) → pendingRects m2.pending = []) := by
  refine ⟨?_, ?_, ?_, ?_, ?_, ?_⟩
  · unfold displayPage
    split <;> rfl
  · intro r0 h
    exact mem_addPending h
  · intro r0 h
    exact mem_removePending h
  · intro r0 h
    obtain ⟨e, he, hr0⟩ := List.mem_flatMap.mp h
    exact List.mem_flatMap.mpr ⟨e, List.mem_of_mem_eraseP he, hr0⟩
  · intro r0 h
    simp [clearAllRedactions, pendingRects] at h
  · intro cnt m2 h
    rw [(applyRedactions_some h).2]
    rfl

/-- Witness for C6 at the concrete fixture state. -/
theorem marks_immutable_witness :
    (displayPage (fun _ => 0) (fun _ => 800) csW 0 none 1000).model = csW.model ∧
    (∀ r0 ∈ pendingRects (addRedaction mW rB).pending,
      r0 ∈ pendingRects mW.pending ∨ r0 = rB) ∧
    (∀ r0 ∈ pendingRects (removeRedaction mW "aa").2.pending,
      r0 ∈ pendingRects mW.pending) ∧
    (∀ r0 ∈ pendingRects (clearPageRedactions mW 0).2.pending,
      r0 ∈ pendingRects mW.pending) ∧
    (∀ r0 ∈ pendingRects (clearAllRedactions mW).2.pending,
      r0 ∈ pendingRects mW.pending) ∧
    (∀ cnt m2, applyRedactions mW = some (cnt, m2) → pendingRects m2.pending = []) :=
  marks_immutable csW (fun _ => 0) (fun _ => 800) 0 0 none 1000 mW rB "aa"

/-- C9: when a drag is in progress, releasing over a normalized
rectangle narrower than MIN_RECT_SIZE in width or height leaves the
model untouched; otherwise exactly the manual mark with the normalized,
canvas-to-PDF-converted rectangle is added. -/
theorem release_min_rect_size (cs : CanvasState) (fid : String)
    (x0 y0 cx cy : ℚ) (hdraw : cs.drawing = some (x0, y0)) :
    ((max x0 cx - min x0 cx < MIN_RECT_SIZE ∨
      max y0 cy - min y0 cy < MIN_RECT_SIZE) →
      (onRelease cs fid cx cy).model = cs.model) ∧
    (MIN_RECT_SIZE ≤ max x0 cx - min x0 cx →
      MIN_RECT_SIZE ≤ max y0 cy - min y0 cy →
      (onRelease cs fid cx cy).model = addRedaction cs.model
        { id := fid, page_num := cs.model.current_page,
          pdf_rect := ((canvasToPdf cs.totalScale (min x0 cx) (min y0 cy)).1,
                       (canvasToPdf cs.totalScale (min x0 cx) (min y0 cy)).2,
                       (canvasToPdf cs.totalScale (max x0 cx) (max y0 cy)).1,
                       (canvasToPdf cs.totalScale (max x0 cx) (max y0 cy)).2),
          source := "manual", search_term := "" }) := by
  constructor
  · intro h
    simp only [onRelease, hdraw]
    rw [if_pos h]
  · intro h1 h2
    simp only [onRelease, hdraw]
    rw [if_neg (by push_neg; exact ⟨h1, h2⟩)]

/-- Witness for C9: a 10 × 7 pixel drag from the origin at scale 2. -/
theorem release_min_rect_size_witness :
    ((max 0 10 - min 0 10 < MIN_RECT_SIZE ∨
      max 0 7 - min 0 7 < MIN_RECT_SIZE) →
      (onRelease csW "cc" 10 7).model = csW.model) ∧
    (MIN_RECT_SIZE ≤ max 0 10 - min 0 10 →
      MIN_RECT_SIZE ≤ max 0 7 - min 0 7 →
      (onRelease csW "cc" 10 7).model = addRedaction csW.model
        { id := "cc", page_num := csW.model.current_page,
          pdf_rect := ((canvasToPdf csW.totalScale (min 0 10) (min 0 7)).1,
                       (canvasToPdf csW.totalScale (min 0 10) (min 0 7)).2,
                       (canvasToPdf csW.totalScale (max 0 10) (max 0 7)).1,
                       (canvasToPdf csW.totalScale (max 0 10) (max 0 7)).2),
          source := "manual", search_term := "" }) :=
  release_min_rect_size csW "cc" 0 0 10 7 rfl

theorem renderPage_length_le {render : Nat → Img} {c : Cache} {p : Nat}
    (h : c.length ≤ CACHE_LIMIT) :
    ((renderPage render c p).2).length ≤ CACHE_LIMIT := by
  cases hl : c.lookup p with
  | some img =>
      simp only [renderPage, hl]
      have hm : (p, img) ∈ c := lookup_mem hl
      have hlen := @List.length_eraseP_of_mem (Nat × Img) c (p, img)
        (fun e => e.1 == p) hm (by simp)
      have hpos : 0 < c.length := List.length_pos.mpr (List.ne_nil_of_mem hm)
      simp only [List.length_append, List.length_cons, List.length_nil, hlen]
      omega
  | none =>
      simp only [renderPage, hl]
      split
      · rename_i hlen
        simp only [List.length_drop, List.length_append, List.length_cons,
          List.length_nil]
        omega
      · rename_i hlen
        simp only [List.length_append, List.length_cons, List.length_nil] at hlen ⊢
        omega

theorem invalidate_length_le {c : Cache} {po : Option Nat}
    (h : c.length ≤ CACHE_LIMIT) : (invalidate c po).length ≤ CACHE_LIMIT := by
  cases po with
  | none => simp [invalidate]
  | some p =>
      calc (invalidate c (some p)).length ≤ c.length := List.length_eraseP_le c
        _ ≤ CACHE_LIMIT := h

theorem runCacheOps_length_le {render : Nat → Img} :
    ∀ (ops : List CacheOp) (c : Cache), c.length ≤ CACHE_LIMIT →
      (runCacheOps render c ops).length ≤ CACHE_LIMIT := by
  intro ops
  induction ops with
  | nil => intro c h; exact h
  | cons op rest ih =>
      intro c h
      cases op with
      | render p => exact ih _ (renderPage_length_le h)
      | invalidate po => exact ih _ (invalidate_length_le h)

/-- C7: the page-image cache is a bounded LRU: any sequence of
render/invalidate calls from the empty cache stays within CACHE_LIMIT
entries; a hit returns the cached image without consulting the engine
and moves the entry to the most recently used end; a miss on a full
cache evicts exactly the least recently used (front) entry. -/
theorem cache_bounded_lru (render render2 : Nat → Img) (ops : List CacheOp)
    (c : Cache) (p : Nat) (img : Img) (c2 : Cache) (q : Nat) :
    (runCacheOps render [] ops).length ≤ CACHE_LIMIT ∧
    (c.lookup p = some img →
      renderPage render c p = (img, c.eraseP (fun e => e.1 == p) ++ [(p, img)])) ∧
    (c.lookup p = some img → renderPage render c p = renderPage render2 c p) ∧
    (c2.lookup q = none → c2.length = CACHE_LIMIT →
      renderPage render c2 q = (render q, c2.drop 1 ++ [(q, render q)])) := by
  refine ⟨runCacheOps_length_le ops [] (by simp), ?_, ?_, ?_⟩
  · intro h
    simp [renderPage, h]
  · intro h
    simp [renderPage, h]
  · intro h hlen
    rw [show CACHE_LIMIT = 5 from rfl] at hlen
    simp only [renderPage, h]
    rw [if_pos (by
      simp only [List.length_append, List.length_cons, List.length_nil, hlen]
      decide)]
    rw [List.drop_append_of_le_length (by omega)]

/-- Witness for C7: a hit on a one-entry cache and a miss on a full
five-entry cache that evicts the front entry. -/
theorem cache_bounded_lru_witness :
    (runCacheOps (fun n => n) [] [CacheOp.render 1, CacheOp.render 2]).length ≤
      CACHE_LIMIT ∧
    ([(3, 30)].lookup 3 = some 30 →
      renderPage (fun n => n) [(3, 30)] 3 =
        (30, List.eraseP (fun e => e.1 == 3) [(3, 30)] ++ [(3, 30)])) ∧
    ([(3, 30)].lookup 3 = some 30 →
      renderPage (fun n => n) [(3, 30)] 3 = renderPage (fun n => 10 * n) [(3, 30)] 3) ∧
    (([(1, 1), (2, 2), (3, 3), (4, 4), (5, 5)] : Cache).lookup 6 = none →
      ([(1, 1), (2, 2), (3, 3), (4, 4), (5, 5)] : Cache).length = CACHE_LIMIT →
      renderPage (fun n => n) [(1, 1), (2, 2), (3, 3), (4, 4), (5, 5)] 6 =
        (6, List.drop 1 [(1, 1), (2, 2), (3, 3), (4, 4), (5, 5)] ++ [(6, 6)])) :=
  cache_bounded_lru (fun n => n) (fun n => 10 * n)
    [CacheOp.render 1, CacheOp.render 2] [(3, 30)] 3 30
    [(1, 1), (2, 2), (3, 3), (4, 4), (5, 5)] 6

theorem saveTail_countSave_le (savePath : Option String)
    (saveResult : Except String Unit) :
    (saveTail savePath saveResult).countP isCallSave ≤ 1 := by
  rcases savePath with - | path
  · simp [saveTail]
  · cases saveResult <;>
      simp [saveTail, isCallSave, List.countP_cons]

theorem saveTail_countApply (savePath : Option String)
    (saveResult : Except String Unit) :
    (saveTail savePath saveResult).countP isCallApply = 0 := by
  rcases savePath with - | path
  · simp [saveTail]
  · cases saveResult <;>
      simp [saveTail, isCallApply, List.countP_cons]

theorem doApply_countApply (res : Except String Nat) :
    (doApply res).countP isCallApply = 1 := by
  cases res <;> simp [doApply, isCallApply, List.countP_cons]

theorem doApply_countSave (res : Except String Nat) :
    (doApply res).countP isCallSave = 0 := by
  cases res <;> simp [doApply, isCallSave, List.countP_cons]

/-- C8: every failure of opening, saving or applying is caught by its
handler and surfaced as exactly one modal error dialog ending that
handler's run, and no handler invokes the failing operation more than
once (no retry, no automatic recovery). -/
theorem ui_failures_surfaced
    (dialogPath : Option String) (openResult : Except String Unit)
    (openErr pathO : String) (hasDoc hasPending : Bool) (answer : Option Bool)
    (applyResult : Except String Nat) (applyErr : String)
    (savePath : Option String) (saveResult : Except String Unit)
    (saveErr pathS : String) :
    (onOpen dialogPath openResult).countP isCallOpen ≤ 1 ∧
    onOpen (some pathO) (.error openErr) =
      [UIEvent.callOpenDoc pathO,
       UIEvent.errorDialog ("Could not open PDF:\n" ++ openErr)] ∧
    (doApply applyResult).countP isCallApply = 1 ∧
    doApply (.error applyErr) =
      [UIEvent.callApply,
       UIEvent.errorDialog ("Failed to apply redactions:\n" ++ applyErr)] ∧
    (onSave hasDoc hasPending answer applyResult savePath saveResult).countP
      isCallSave ≤ 1 ∧
    (onSave hasDoc hasPending answer applyResult savePath saveResult).countP
      isCallApply ≤ 1 ∧
    (hasDoc = true → ¬(hasPending = true ∧ answer = none) →
      ∃ pre, onSave hasDoc hasPending answer applyResult (some pathS)
          (.error saveErr) =
        pre ++ [UIEvent.callSaveDoc pathS,
                UIEvent.errorDialog ("Could not save PDF:\n" ++ saveErr)]) := by
  refine ⟨?_, rfl, doApply_countApply applyResult, rfl, ?_, ?_, ?_⟩
  · rcases dialogPath with - | path
    · simp [onOpen]
    · cases openResult <;> simp [onOpen, isCallOpen, List.countP_cons]
  · cases hasDoc with
    | false => simp [onSave]
    | true =>
        cases hasPending with
        | false => simpa [onSave] using saveTail_countSave_le savePath saveResult
        | true =>
            rcases answer with - | b
            · simp [onSave]
            · cases b
              · simpa [onSave] using saveTail_countSave_le savePath saveResult
              · have h1 := doApply_countSave applyResult
                have h2 := saveTail_countSave_le savePath saveResult
                simp only [onSave, show (true = false) = False from by simp,
                  if_false, List.countP_append]
                omega
  · cases hasDoc with
    | false => simp [onSave]
    | true =>
        cases hasPending with
        | false =>
            simp [onSave, saveTail_countApply savePath saveResult]
        | true =>
            rcases answer with - | b
            · simp [onSave]
            · cases b
              · simp [onSave, saveTail_countApply savePath saveResult]
              · have h1 := doApply_countApply applyResult
                have h2 := saveTail_countApply savePath saveResult
                simp only [onSave, show (true = false) = False from by simp,
                  if_false, List.countP_append]
                omega
  · intro hdoc hpa
    subst hdoc
    cases hasPending with
    | false => exact ⟨[], by simp [onSave, saveTail]⟩
    | true =>
        rcases answer with - | b
        · exact absurd ⟨rfl, rfl⟩ hpa
        · cases b
          · exact ⟨[], by simp [onSave, saveTail]⟩
          · exact ⟨doApply applyResult, by simp [onSave, saveTail]⟩

/-- Witness for C8: failing open, apply and save runs, with the pending
prompt answered Yes. -/
theorem ui_failures_surfaced_witness :
    (onOpen (some ("in.pdf")) (.error ("eo"))).countP isCallOpen ≤ 1 ∧
    onOpen (some ("in.pdf")) (.error ("eo")) =
      [UIEvent.callOpenDoc "in.pdf",
       UIEvent.errorDialog ("Could not open PDF:\n" ++ "eo")] ∧
    (doApply (.error ("ea"))).countP isCallApply = 1 ∧
    doApply (.error ("ea")) =
      [UIEvent.callApply,
       UIEvent.errorDialog ("Failed to apply redactions:\n" ++ "ea")] ∧
    (onSave true true (some true) (.error ("ea")) (some ("out.pdf"))
      (.error ("es"))).countP isCallSave ≤ 1 ∧
    (onSave true true (some true) (.error ("ea")) (some ("out.pdf"))
      (.error ("es"))).countP isCallApply ≤ 1 ∧
    (true = true → ¬(true = true ∧ (some true : Option Bool) = none) →
      ∃ pre, onSave true true (some true) (.error ("ea")) (some ("out.pdf"))
          (.error ("es")) =
        pre ++ [UIEvent.callSaveDoc "out.pdf",
                UIEvent.errorDialog ("Could not save PDF:\n" ++ "es")]) :=
  ui_failures_surfaced (some ("in.pdf")) (.error ("eo")) "eo" "in.pdf"
    true true (some true) (.error ("ea")) "ea" (some ("out.pdf"))
    (.error ("es")) "es" "out.pdf"

theorem page_of_mem_getPage {pending : Pending} (hpm : PagesMatch pending)
    {q : Nat} {r : RedactionRect} (hr : r ∈ getPageRedactions pending q) :
    r.page_num = q := by
  unfold getPageRedactions at hr
  cases hl : pending.lookup q with
  | none => rw [hl] at hr; simp at hr
  | some l =>
      rw [hl] at hr
      simp only [Option.getD_some] at hr
      exact hpm (q, l) (pending_lookup_mem hl) r hr

theorem flatMap_getPage_keys :
    ∀ {pending : Pending}, KeysNodup pending →
      (pending.map Prod.fst).flatMap (getPageRedactions pending) =
        pendingRects pending := by
  intro pending
  induction pending with
  | nil => intro _; rfl
  | cons e rest ih =>
      obtain ⟨p, l⟩ := e
      intro hnd
      simp only [KeysNodup, List.map_cons, List.nodup_cons] at hnd
      simp only [List.map_cons, List.flatMap_cons, pendingRects_cons]
      have hhead : getPageRedactions ((p, l) :: rest) p = l := by
        simp [getPageRedactions, List.lookup_cons]
      have htail : (List.map Prod.fst rest).flatMap
            (getPageRedactions ((p, l) :: rest)) =
          (List.map Prod.fst rest).flatMap (getPageRedactions rest) := by
        apply List.flatMap_congr
        intro q hq
        have hqp : q ≠ p := fun hh => hnd.1 (hh ▸ hq)
        simp [getPageRedactions, List.lookup_cons, beq_eq_false_iff_ne.mpr hqp]
      rw [hhead, htail, ih hnd.2]

theorem pairwise_pages {f : Nat → List RedactionRect} :
    ∀ {ks : List Nat}, ks.Pairwise (· ≤ ·) →
      (∀ q ∈ ks, ∀ r ∈ f q, r.page_num = q) →
      ((ks.flatMap f).map (fun r => r.page_num)).Pairwise (· ≤ ·) := by
  intro ks
  induction ks with
  | nil => intro _ _; simp
  | cons k rest ih =>
      intro hp hf
      rcases List.pairwise_cons.mp hp with ⟨hk, htail⟩
      simp only [List.flatMap_cons, List.map_append]
      rw [List.pairwise_append]
      refine ⟨?_, ih htail (fun q hq => hf q (List.mem_cons_of_mem _ hq)), ?_⟩
      · apply List.pairwise_of_forall_mem_list
        intro a ha b hb
        rw [List.mem_map] at ha hb
        obtain ⟨ra, hra, hae⟩ := ha
        obtain ⟨rb, hrb, hbe⟩ := hb
        rw [← hae, ← hbe, hf k (List.mem_cons_self _ _) ra hra,
          hf k (List.mem_cons_self _ _) rb hrb]
      · intro a ha b hb
        rw [List.mem_map] at ha hb
        obtain ⟨ra, hra, hae⟩ := ha
        obtain ⟨rb, hrb, hbe⟩ := hb
        rw [List.mem_flatMap] at hrb
        obtain ⟨q, hq, hrbq⟩ := hrb
        rw [← hae, ← hbe, hf k (List.mem_cons_self _ _) ra hra,
          hf q (List.mem_cons_of_mem _ hq) rb hrbq]
        exact hk q hq

theorem flatMap_eq_single {g : Nat → List RedactionRect} {p : Nat} :
    ∀ {ks : List Nat}, ks.Nodup → p ∈ ks → (∀ q ∈ ks, q ≠ p → g q = []) →
      ks.flatMap g = g p := by
  intro ks
  induction ks with
  | nil => intro _ h; simp at h
  | cons k rest ih =>
      intro hnd hp h0
      simp only [List.nodup_cons] at hnd
      by_cases hk : k = p
      · subst hk
        simp only [List.flatMap_cons]
        have hrest : rest.flatMap g = [] := List.flatMap_eq_nil_iff.mpr
          (fun q hq => h0 q (List.mem_cons_of_mem _ hq)
            (fun hh => hnd.1 (hh ▸ hq)))
        rw [hrest, List.append_nil]
      · have hk0 : g k = [] := h0 k (List.mem_cons_self _ _) hk
        have hp2 : p ∈ rest := by
          rcases List.mem_cons.mp hp with h1 | h1
          · exact absurd h1.symm hk
          · exact h1
        simp only [List.flatMap_cons, hk0, List.nil_append]
        exact ih hnd.2 hp2 (fun q hq => h0 q (List.mem_cons_of_mem _ hq))

theorem allRedactions_filter {pending : Pending} (hnd : KeysNodup pending)
    (hpm : PagesMatch pending) (p : Nat) :
    (allRedactions pending).filter (fun r => r.page_num == p) =
      getPageRedactions pending p := by
  unfold allRedactions
  rw [List.filter_flatMap]
  have hperm := List.perm_insertionSort (· ≤ ·) (pending.map Prod.fst)
  have hzero : ∀ q ∈ List.insertionSort (· ≤ ·) (pending.map Prod.fst), q ≠ p →
      (getPageRedactions pending q).filter (fun r => r.page_num == p) = [] := by
    intro q hq hqp
    rw [List.filter_eq_nil_iff]
    intro r hr
    rw [page_of_mem_getPage hpm hr]
    simp [hqp]
  by_cases hp : p ∈ pending.map Prod.fst
  · have hpks : p ∈ List.insertionSort (· ≤ ·) (pending.map Prod.fst) :=
      hperm.mem_iff.mpr hp
    have hndks : (List.insertionSort (· ≤ ·) (pending.map Prod.fst)).Nodup :=
      hperm.symm.nodup hnd
    rw [flatMap_eq_single hndks hpks hzero]
    rw [List.filter_eq_self.mpr]
    intro r hr
    rw [page_of_mem_getPage hpm hr]
    simp
  · have hlp : pending.lookup p = none := lookup_eq_none_keys hp
    have hgp : getPageRedactions pending p = [] := by
      simp [getPageRedactions, hlp]
    rw [hgp]
    apply List.flatMap_eq_nil_iff.mpr
    intro q hq
    by_cases hqp : q = p
    · subst hqp
      rw [hgp]
      rfl
    · exact hzero q hq hqp

/-- C5: all_redactions returns exactly the pending marks (a permutation
of the concatenated page lists), in ascending page order, and its
restriction to any single page is exactly that page's stored list, the
list that add_redaction appends to in arrival order. -/
theorem all_redactions_ordered (m : RedactionModel) (p : Nat)
    (hnd : KeysNodup m.pending) (hpm : PagesMatch m.pending) :
    (allRedactions m.pending).Perm (pendingRects m.pending) ∧
    ((allRedactions m.pending).map (fun r => r.page_num)).Pairwise (· ≤ ·) ∧
    (allRedactions m.pending).filter (fun r => r.page_num == p) =
      getPageRedactions m.pending p := by
  refine ⟨?_, ?_, allRedactions_filter hnd hpm p⟩
  · unfold allRedactions
    have h1 := List.perm_insertionSort (· ≤ ·) (m.pending.map Prod.fst)
    have h2 := h1.flatMap_right (getPageRedactions m.pending)
    rw [flatMap_getPage_keys hnd] at h2
    exact h2
  · unfold allRedactions
    apply pairwise_pages
    · exact List.sorted_insertionSort (· ≤ ·) (m.pending.map Prod.fst)
    · intro q hq r hr
      exact page_of_mem_getPage hpm hr

/-- Witness for C5 at the concrete two-page state. -/
theorem all_redactions_ordered_witness :
    (allRedactions mW.pending).Perm (pendingRects mW.pending) ∧
    ((allRedactions mW.pending).map (fun r => r.page_num)).Pairwise (· ≤ ·) ∧
    (allRedactions mW.pending).filter (fun r => r.page_num == 0) =
      getPageRedactions mW.pending 0 :=
  all_redactions_ordered mW 0 (by unfold KeysNodup; decide)
    (by unfold PagesMatch; decide)

end PDFRedactor
